import Mathlib

/-!
Distributed task queue backend: LRU cache, registry and dispatcher.

A shallow embedding of `distributed-tasks-backend/main.go`.

* Go slices are Lean lists, the Go map `map[string]*Task` is a finite map
  (`Finmap`) from keys to task values.  Every pointer stored in the map is the
  address of a fresh copy made by `Put` and nothing ever writes through it, so
  the pointee is modelled by its value.
* Run-time panics of Go (index out of range, `make` with a negative capacity)
  are explicit: fallible code returns `Except GoPanic _`.
* The locks `mu` are not modelled; every function below runs without
  interleaving.  The one point where a handler can wait, the send on a full
  channel, is an explicit outcome of `submitTask`, and the process is a
  sequence of atomic steps (`Event`).
-/

namespace DistributedQueue

/-! ## Data model -/

/-- Go struct `Task` (main.go, lines 11-17); `time.Time` is an abstract instant. -/
structure Task where
  ID : String
  Name : String
  Stream : String
  Status : String
  Timestamp : Int
deriving DecidableEq

/-- Run-time panics the code can raise. -/
inductive GoPanic where
  | indexOutOfRange
  | makesliceCapOutOfRange
deriving DecidableEq

deriving instance DecidableEq for Except

/-- Go type `map[string]*Task`. -/
abbrev TaskMap := Finmap (fun _ : String => Task)

/-- Go struct `LRUCache` (lines 129-134) without its lock. -/
structure LRUCache where
  capacity : Int
  cache : TaskMap
  order : List String
deriving DecidableEq

/-! ## The LRU cache -/

/-- Go `NewLRUCache` (lines 136-142): `make([]string, 0, capacity)` panics on a
negative capacity. -/
def NewLRUCache (capacity : Int) : Except GoPanic LRUCache :=
  if capacity < 0 then .error .makesliceCapOutOfRange
  else .ok { capacity := capacity, cache := ∅, order := [] }

/-- The loop of `remove` (lines 175-180): splice out the first position that
holds `key`, then `break`. -/
def spliceFirst (key : String) : List String → List String
  | [] => []
  | k :: rest => if k = key then rest else k :: spliceFirst key rest

/-- Go `(*LRUCache).remove` (lines 173-181). -/
def LRUCache.remove (l : LRUCache) (key : String) : LRUCache :=
  { l with cache := l.cache.erase key, order := spliceFirst key l.order }

/-- The two closing statements shared by `Put` (lines 155-156) and the hit
branch of `Get` (lines 165-166): write the map entry, append the key. -/
def LRUCache.store (l : LRUCache) (key : String) (value : Task) : LRUCache :=
  { l with cache := l.cache.insert key value, order := l.order ++ [key] }

/-- Go `(*LRUCache).Put` (lines 144-157).  `l.order[0]` panics on an empty
order. -/
def LRUCache.Put (l : LRUCache) (key : String) (value : Task) :
    Except GoPanic LRUCache :=
  if key ∈ l.cache then
    .ok ((l.remove key).store key value)
  else if l.capacity ≤ (l.order.length : Int) then
    match l.order with
    | [] => .error .indexOutOfRange
    | oldest :: _ => .ok ((l.remove oldest).store key value)
  else
    .ok (l.store key value)

/-- Go `(*LRUCache).Get` (lines 159-171).  The result `some value` stands for
`(value, true)` and `none` for `(nil, false)`; the second component is the
cache after the call. -/
def LRUCache.Get (l : LRUCache) (key : String) : Option Task × LRUCache :=
  match l.cache.lookup key with
  | some value => (some value, (l.remove key).store key value)
  | none => (none, l)

/-- One call made by a client of the cache. -/
inductive CacheOp where
  | put (key : String) (value : Task)
  | get (key : String)
deriving DecidableEq

/-- Effect of one call on the cache. -/
def LRUCache.apply (l : LRUCache) : CacheOp → Except GoPanic LRUCache
  | .put key value => l.Put key value
  | .get key => .ok (l.Get key).2

/-- Effect of a finite sequence of calls, stopping at the first panic. -/
def LRUCache.run (l : LRUCache) : List CacheOp → Except GoPanic LRUCache
  | [] => .ok l
  | op :: ops =>
    match l.apply op with
    | .ok l1 => l1.run ops
    | .error e => .error e

/-- Calls applied to a freshly constructed cache of the given capacity. -/
def runNew (capacity : Int) (ops : List CacheOp) : Except GoPanic LRUCache :=
  match NewLRUCache capacity with
  | .ok l => l.run ops
  | .error e => .error e

/-- States of the cache reachable from `NewLRUCache c` by `Put` and `Get`. -/
def LRUCache.Reachable (c : Int) (l : LRUCache) : Prop :=
  ∃ ops : List CacheOp, runNew c ops = .ok l

/-- The key a call touches in state `l`: every `Put` touches its key, a `Get`
touches its key when it hits. -/
def touchOf (l : LRUCache) : CacheOp → List String
  | .put key _ => [key]
  | .get key => if key ∈ l.cache then [key] else []

/-- The keys touched along a run, in the order of the touches. -/
def touches (l : LRUCache) : List CacheOp → List String
  | [] => []
  | op :: ops =>
    touchOf l op ++
      match l.apply op with
      | .ok l1 => touches l1 ops
      | .error _ => []

/-- The keys touched by calls applied to a freshly constructed cache. -/
def touchesNew (capacity : Int) (ops : List CacheOp) : List String :=
  match NewLRUCache capacity with
  | .ok l => touches l ops
  | .error _ => []

/-- The distinct keys of a touch sequence sorted by the position of their last
touch, oldest first: a key is kept at its last occurrence only. -/
def lastTouchOrder : List String → List String
  | [] => []
  | k :: rest => if k ∈ rest then lastTouchOrder rest else k :: lastTouchOrder rest

/-- The list truncated to its last `c` elements. -/
def lastN (c : Int) (xs : List String) : List String :=
  xs.drop (xs.length - c.toNat)

/-- Number of entries of the key to value mapping, Go `len(l.cache)`. -/
def LRUCache.size (l : LRUCache) : Nat := l.cache.keys.card

/-- Representation invariant of a cache of capacity `c`. -/
structure LRUCache.WF (c : Int) (l : LRUCache) : Prop where
  cap : l.capacity = c
  nodup : l.order.Nodup
  keys : ∀ k, k ∈ l.order ↔ k ∈ l.cache
  bound : (l.order.length : Int) ≤ c

/-! ## Registry, submission and dispatcher -/

/-- Buffer size of the channel `taskQueue` (line 21). -/
def taskQueueCap : Nat := 100

/-- The package-level variables (lines 19-24) without the lock.  `taskQueue`
is the buffered content of the channel, oldest first; the zero values are the
nil slice, the empty channel and the empty string. -/
structure Globals where
  tasks : List Task
  taskQueue : List Task
  schedulingMechanism : String
deriving DecidableEq

/-- What `submitTask` reads from its `gin.Context`: the outcome of
`c.ShouldBindJSON(&newTask)`, an error or the decoded `Task`, and the query
parameter `schedulingMechanism` (empty when absent).  The struct `Task` carries
`json` tags only and no `binding` tag, so decoding constrains no field and an
absent field decodes to the zero value. -/
structure Request where
  body : Except String Task
  schedulingMechanism : String
deriving DecidableEq

/-- Where a run of `submitTask` stands when it stops: it has answered 400 with
the binding error, it has answered 200 with the task, or it is parked at the
send `taskQueue <- newTask` on a full channel, still holding `mu`. -/
inductive Response where
  | badRequest (err : String)
  | ok (task : Task)
  | blockedOnSend (task : Task)
deriving DecidableEq

/-- Go `submitTask` (lines 51-73); `newID` is the result of `uuid.NewString()`
and `now` the result of `time.Now()`. -/
def submitTask (g : Globals) (req : Request) (newID : String) (now : Int) :
    Globals × Response :=
  match req.body with
  | .error err => (g, .badRequest err)
  | .ok decoded =>
    let g1 := { g with schedulingMechanism := req.schedulingMechanism }
    let newTask := { decoded with ID := newID, Status := "pending", Timestamp := now }
    let g2 := { g1 with tasks := g1.tasks ++ [newTask] }
    if g2.taskQueue.length < taskQueueCap then
      ({ g2 with taskQueue := g2.taskQueue ++ [newTask] }, .ok newTask)
    else
      (g2, .blockedOnSend newTask)

/-- The rest of `submitTask` (lines 70-72) for a handler parked at the send:
once the channel has a free slot the task is enqueued and returned. -/
def completeSend (g : Globals) (newTask : Task) : Option (Globals × Response) :=
  if g.taskQueue.length < taskQueueCap then
    some ({ g with taskQueue := g.taskQueue ++ [newTask] }, .ok newTask)
  else
    none

/-- Go `countTasksByStatus` (lines 83-91). -/
def countTasksByStatus (g : Globals) (status : String) : Nat :=
  g.tasks.foldl (fun count task => if task.Status = status then count + 1 else count) 0

/-- The JSON object written by `getTasks`. -/
structure TasksReport where
  pending : Nat
  inProgress : Nat
  completed : Nat
  failed : Nat
  tasks : List Task
deriving DecidableEq

/-- Go `getTasks` (lines 39-49). -/
def getTasks (g : Globals) : TasksReport :=
  { pending := countTasksByStatus g "pending",
    inProgress := countTasksByStatus g "inProgress",
    completed := countTasksByStatus g "completed",
    failed := countTasksByStatus g "failed",
    tasks := g.tasks }

/-- Go `processTaskStream` (lines 117-119): the body is a TODO comment. -/
def processTaskStream (_task : Task) : Unit := ()

/-- Go `processRoundRobin` (lines 121-123): the body is a TODO comment. -/
def processRoundRobin (_queue : List Task) : Unit := ()

/-- Go `processFIFO` (lines 125-127): the body is a TODO comment. -/
def processFIFO (_queue : List Task) : Unit := ()

/-- The local variables of `processTasks` (lines 94-96). -/
structure Dispatcher where
  lruCache : LRUCache
  roundRobinQueue : List Task
  fifoQueue : List Task
deriving DecidableEq

/-- The declarations that open `processTasks` (lines 94-96). -/
def newDispatcher : Except GoPanic Dispatcher :=
  match NewLRUCache 10 with
  | .ok lruCache => .ok { lruCache := lruCache, roundRobinQueue := [], fifoQueue := [] }
  | .error e => .error e

/-- The `switch` of `processTasks` (lines 99-113) for one received task and the
value of the selector read at that moment. -/
def Dispatcher.route (d : Dispatcher) (schedulingMechanism : String) (task : Task) :
    Except GoPanic Dispatcher :=
  if schedulingMechanism = "LRU" then
    match d.lruCache.Put task.ID task with
    | .ok lruCache =>
      let _ := processTaskStream task
      .ok { d with lruCache := lruCache }
    | .error e => .error e
  else if schedulingMechanism = "RoundRobin" then
    let roundRobinQueue := d.roundRobinQueue ++ [task]
    let _ := processRoundRobin roundRobinQueue
    .ok { d with roundRobinQueue := roundRobinQueue }
  else if schedulingMechanism = "FIFO" then
    let fifoQueue := d.fifoQueue ++ [task]
    let _ := processFIFO fifoQueue
    .ok { d with fifoQueue := fifoQueue }
  else
    let fifoQueue := d.fifoQueue ++ [task]
    let _ := processFIFO fifoQueue
    .ok { d with fifoQueue := fifoQueue }

/-- The whole process: package-level variables and the dispatcher goroutine. -/
structure System where
  globals : Globals
  dispatcher : Dispatcher
deriving DecidableEq

/-- The process at start-up. -/
def newSystem : Except GoPanic System :=
  match newDispatcher with
  | .ok d => .ok { globals := { tasks := [], taskQueue := [], schedulingMechanism := "" },
                   dispatcher := d }
  | .error e => .error e

/-- One iteration of the loop `for task := range taskQueue` (lines 98-114): the
dispatcher receives the oldest task of the channel and routes it under the
current selector; on an empty channel it waits and nothing changes. -/
def System.dispatch (s : System) : Except GoPanic System :=
  match s.globals.taskQueue with
  | [] => .ok s
  | task :: rest =>
    match s.dispatcher.route s.globals.schedulingMechanism task with
    | .ok d => .ok { globals := { s.globals with taskQueue := rest }, dispatcher := d }
    | .error e => .error e

/-- The atomic steps of the process. -/
inductive Event where
  | submit (req : Request) (newID : String) (now : Int)
  | completeSend (task : Task)
  | dispatch
deriving DecidableEq

/-- Effect of one step. A parked send that finds no free slot stays parked. -/
def System.step (s : System) : Event → Except GoPanic System
  | .submit req newID now => .ok { s with globals := (submitTask s.globals req newID now).1 }
  | .completeSend task =>
    match completeSend s.globals task with
    | some (g, _) => .ok { s with globals := g }
    | none => .ok s
  | .dispatch => s.dispatch

/-- Effect of a finite sequence of steps, stopping at the first panic. -/
def System.run (s : System) : List Event → Except GoPanic System
  | [] => .ok s
  | ev :: evs =>
    match s.step ev with
    | .ok s1 => s1.run evs
    | .error e => .error e

/-- Steps applied to the process at start-up. -/
def runSystem (evs : List Event) : Except GoPanic System :=
  match newSystem with
  | .ok s => s.run evs
  | .error e => .error e

/-- The task that a submission adds to the registry, if its body decodes. -/
def Event.accepted : Event → Option Task
  | .submit req newID now =>
    match req.body with
    | .ok decoded => some { decoded with ID := newID, Status := "pending", Timestamp := now }
    | .error _ => none
  | .completeSend _ => none
  | .dispatch => none

/-- Invariant of the process: the cache of the dispatcher keeps capacity 10 and
every registered task is pending. -/
structure System.Inv (s : System) : Prop where
  cap : s.dispatcher.lruCache.capacity = 10
  pending : ∀ t ∈ s.globals.tasks, t.Status = "pending"

/-! ## Sample data -/

def taskA : Task := ⟨"a", "A", "X", "pending", 1⟩
def taskB : Task := ⟨"b", "B", "X", "pending", 2⟩
def taskC : Task := ⟨"c", "C", "Y", "pending", 3⟩
def taskD : Task := ⟨"d", "D", "Y", "pending", 4⟩

/-- A request body as decoded from `{"name": "A", "taskStream": "X"}`. -/
def bodyA : Task := ⟨"", "A", "X", "", 0⟩
def bodyB : Task := ⟨"", "B", "X", "", 0⟩
def bodyC : Task := ⟨"", "C", "Y", "", 0⟩

/-- A request body as decoded from `{}`: empty Name and empty Stream. -/
def bodyEmpty : Task := ⟨"", "", "", "", 0⟩

/-- The package-level variables at start-up. -/
def globals0 : Globals := { tasks := [], taskQueue := [], schedulingMechanism := "" }

/-- The capacity 2 cache after `Put(a)`, `Put(b)`, `Put(c)`, `Get(b)`. -/
def cacheCB : LRUCache :=
  { capacity := 2, cache := ((∅ : TaskMap).insert "c" taskC).insert "b" taskB,
    order := ["c", "b"] }

/-! ## Lemmas on the cache -/

theorem spliceFirst_eq_erase (key : String) (xs : List String) :
    spliceFirst key xs = xs.erase key := by
  induction xs with
  | nil => rfl
  | cons k rest ih =>
    by_cases h : k = key
    · simp [spliceFirst, h]
    · simp [spliceFirst, h, List.erase_cons, ih]

theorem remove_store_order (l : LRUCache) (a k : String) (v : Task) :
    ((l.remove a).store k v).order = l.order.erase a ++ [k] := by
  simp [LRUCache.remove, LRUCache.store, spliceFirst_eq_erase]

theorem remove_store_cache (l : LRUCache) (a k : String) (v : Task) :
    ((l.remove a).store k v).cache = (l.cache.erase a).insert k v := rfl

theorem remove_store_capacity (l : LRUCache) (a k : String) (v : Task) :
    ((l.remove a).store k v).capacity = l.capacity := rfl

theorem Put_of_mem (l : LRUCache) (k : String) (v : Task) (hk : k ∈ l.cache) :
    l.Put k v = .ok ((l.remove k).store k v) := by
  unfold LRUCache.Put
  rw [if_pos hk]

theorem Put_of_room (l : LRUCache) (k : String) (v : Task) (hk : k ∉ l.cache)
    (hroom : ¬ l.capacity ≤ (l.order.length : Int)) : l.Put k v = .ok (l.store k v) := by
  unfold LRUCache.Put
  rw [if_neg hk, if_neg hroom]

theorem Put_of_full (l : LRUCache) (k : String) (v : Task) (hk : k ∉ l.cache)
    (hfull : l.capacity ≤ (l.order.length : Int)) (oldest : String) (rest : List String)
    (ho : l.order = oldest :: rest) : l.Put k v = .ok ((l.remove oldest).store k v) := by
  unfold LRUCache.Put
  rw [if_neg hk, if_pos hfull]
  simp only [ho]

theorem Put_of_empty_full (l : LRUCache) (k : String) (v : Task) (hk : k ∉ l.cache)
    (hfull : l.capacity ≤ (l.order.length : Int)) (ho : l.order = []) :
    l.Put k v = .error .indexOutOfRange := by
  unfold LRUCache.Put
  rw [if_neg hk, if_pos hfull]
  simp only [ho]

/-- The three ways in which `Put` returns. -/
theorem Put_cases (l : LRUCache) (k : String) (v : Task) (hc : 1 ≤ l.capacity) :
    (k ∈ l.cache ∧ l.Put k v = .ok ((l.remove k).store k v)) ∨
    (k ∉ l.cache ∧ ¬ l.capacity ≤ (l.order.length : Int) ∧ l.Put k v = .ok (l.store k v)) ∨
    (k ∉ l.cache ∧ l.capacity ≤ (l.order.length : Int) ∧ ∃ oldest rest,
      l.order = oldest :: rest ∧ l.Put k v = .ok ((l.remove oldest).store k v)) := by
  by_cases hk : k ∈ l.cache
  · exact Or.inl ⟨hk, Put_of_mem l k v hk⟩
  · by_cases hfull : l.capacity ≤ (l.order.length : Int)
    · by_cases ho : l.order = []
      · rw [ho] at hfull
        simp only [List.length_nil, Nat.cast_zero] at hfull
        omega
      · obtain ⟨oldest, rest, ho⟩ := List.exists_cons_of_ne_nil ho
        exact Or.inr (Or.inr ⟨hk, hfull, oldest, rest, ho, Put_of_full l k v hk hfull oldest rest ho⟩)
    · exact Or.inr (Or.inl ⟨hk, hfull, Put_of_room l k v hk hfull⟩)

/-- With a positive capacity `Put` never panics, and it keeps the capacity. -/
theorem Put_ok_of_pos (l : LRUCache) (k : String) (v : Task) (hc : 1 ≤ l.capacity) :
    ∃ l1, l.Put k v = .ok l1 ∧ l1.capacity = l.capacity := by
  rcases Put_cases l k v hc with ⟨-, h⟩ | ⟨-, -, h⟩ | ⟨-, -, oldest, rest, -, h⟩
  · exact ⟨_, h, rfl⟩
  · exact ⟨_, h, rfl⟩
  · exact ⟨_, h, rfl⟩

/-- Promotion of a cached key keeps the invariant. -/
theorem WF_promote {c : Int} {l : LRUCache} (h : l.WF c) (k : String) (v : Task)
    (hk : k ∈ l.cache) : ((l.remove k).store k v).WF c := by
  have hko : k ∈ l.order := (h.keys k).2 hk
  refine ⟨h.cap, ?_, ?_, ?_⟩
  · rw [remove_store_order]
    refine List.Nodup.append (h.nodup.erase k) (List.nodup_singleton k) ?_
    intro x hx hx2
    rw [List.mem_singleton] at hx2
    subst hx2
    exact (h.nodup.mem_erase_iff.1 hx).1 rfl
  · intro j
    rw [remove_store_order, remove_store_cache, List.mem_append, List.mem_singleton,
      h.nodup.mem_erase_iff, Finmap.mem_insert, Finmap.mem_erase, h.keys j]
    tauto
  · rw [remove_store_order, List.length_append, List.length_erase_of_mem hko]
    have hpos : 0 < l.order.length := List.length_pos_of_mem hko
    have := h.bound
    simp only [List.length_singleton]
    omega

/-- Insertion of a new key below capacity keeps the invariant. -/
theorem WF_store {c : Int} {l : LRUCache} (h : l.WF c) (k : String) (v : Task)
    (hk : k ∉ l.cache) (hroom : ¬ l.capacity ≤ (l.order.length : Int)) :
    (l.store k v).WF c := by
  have hko : k ∉ l.order := fun hx => hk ((h.keys k).1 hx)
  refine ⟨h.cap, ?_, ?_, ?_⟩
  · show (l.order ++ [k]).Nodup
    refine List.Nodup.append h.nodup (List.nodup_singleton k) ?_
    intro x hx hx2
    rw [List.mem_singleton] at hx2
    subst hx2
    exact hko hx
  · intro j
    show j ∈ l.order ++ [k] ↔ j ∈ l.cache.insert k v
    rw [List.mem_append, List.mem_singleton, Finmap.mem_insert, h.keys j]
    tauto
  · show ((l.order ++ [k]).length : Int) ≤ c
    have := h.cap
    simp only [List.length_append, List.length_singleton]
    omega

/-- Eviction of the head followed by insertion of a new key keeps the invariant. -/
theorem WF_evict {c : Int} {l : LRUCache} (h : l.WF c) (k : String) (v : Task)
    (hk : k ∉ l.cache) (oldest : String) (rest : List String)
    (ho : l.order = oldest :: rest) : ((l.remove oldest).store k v).WF c := by
  have hko : k ∉ l.order := fun hx => hk ((h.keys k).1 hx)
  have hoo : oldest ∈ l.order := by rw [ho]; exact List.mem_cons_self _ _
  refine ⟨h.cap, ?_, ?_, ?_⟩
  · rw [remove_store_order]
    refine List.Nodup.append (h.nodup.erase oldest) (List.nodup_singleton k) ?_
    intro x hx hx2
    rw [List.mem_singleton] at hx2
    subst hx2
    exact hko (List.mem_of_mem_erase hx)
  · intro j
    rw [remove_store_order, remove_store_cache, List.mem_append, List.mem_singleton,
      h.nodup.mem_erase_iff, Finmap.mem_insert, Finmap.mem_erase, h.keys j]
    tauto
  · rw [remove_store_order, List.length_append, List.length_erase_of_mem hoo]
    have hpos : 0 < l.order.length := List.length_pos_of_mem hoo
    have := h.bound
    simp only [List.length_singleton]
    omega

theorem WF_Put {c : Int} {l l1 : LRUCache} (h : l.WF c) (k : String) (v : Task)
    (hp : l.Put k v = .ok l1) : l1.WF c := by
  by_cases hk : k ∈ l.cache
  · rw [Put_of_mem l k v hk] at hp
    cases hp
    exact WF_promote h k v hk
  · by_cases hfull : l.capacity ≤ (l.order.length : Int)
    · by_cases ho : l.order = []
      · rw [Put_of_empty_full l k v hk hfull ho] at hp
        cases hp
      · obtain ⟨oldest, rest, ho⟩ := List.exists_cons_of_ne_nil ho
        rw [Put_of_full l k v hk hfull oldest rest ho] at hp
        cases hp
        exact WF_evict h k v hk oldest rest ho
    · rw [Put_of_room l k v hk hfull] at hp
      cases hp
      exact WF_store h k v hk hfull

theorem WF_Get {c : Int} {l : LRUCache} (h : l.WF c) (k : String) : (l.Get k).2.WF c := by
  unfold LRUCache.Get
  cases hl : l.cache.lookup k with
  | none => exact h
  | some value => exact WF_promote h k value (Finmap.mem_of_lookup_eq_some hl)

theorem WF_apply {c : Int} {l l1 : LRUCache} (h : l.WF c) (op : CacheOp)
    (ha : l.apply op = .ok l1) : l1.WF c := by
  cases op with
  | put k v => exact WF_Put h k v ha
  | get k =>
    simp only [LRUCache.apply, Except.ok.injEq] at ha
    subst ha
    exact WF_Get h k

theorem WF_run {c : Int} (ops : List CacheOp) :
    ∀ {l l1 : LRUCache}, l.WF c → l.run ops = .ok l1 → l1.WF c := by
  induction ops with
  | nil =>
    intro l l1 h hr
    simp only [LRUCache.run, Except.ok.injEq] at hr
    subst hr
    exact h
  | cons op ops ih =>
    intro l l1 h hr
    simp only [LRUCache.run] at hr
    cases ha : l.apply op with
    | error e => rw [ha] at hr; cases hr
    | ok l2 =>
      rw [ha] at hr
      exact ih (WF_apply h op ha) hr

theorem WF_new {c : Int} (hc : 0 ≤ c) :
    ∃ l, NewLRUCache c = .ok l ∧ l.WF c ∧ l.order = [] ∧ l.cache = ∅ := by
  refine ⟨{ capacity := c, cache := ∅, order := [] }, ?_, ⟨rfl, List.nodup_nil, ?_, ?_⟩, rfl, rfl⟩
  · simp [NewLRUCache]; omega
  · intro k
    simp [Finmap.not_mem_empty]
  · simpa using hc

theorem WF_of_reachable {c : Int} {l : LRUCache} (h : l.Reachable c) : l.WF c := by
  obtain ⟨ops, hr⟩ := h
  unfold runNew at hr
  cases hn : NewLRUCache c with
  | error e => rw [hn] at hr; cases hr
  | ok l0 =>
    rw [hn] at hr
    have hc : 0 ≤ c := by
      by_contra hneg
      simp [NewLRUCache, not_le.1 hneg] at hn
    obtain ⟨l0', hn', hwf, -, -⟩ := WF_new hc
    rw [hn] at hn'
    cases hn'
    exact WF_run ops hwf hr

theorem run_ok_of_pos (ops : List CacheOp) :
    ∀ l : LRUCache, 1 ≤ l.capacity → ∃ l1, l.run ops = .ok l1 := by
  induction ops with
  | nil => intro l _; exact ⟨l, rfl⟩
  | cons op ops ih =>
    intro l hc
    cases op with
    | put k v =>
      obtain ⟨l2, h2, hcap⟩ := Put_ok_of_pos l k v hc
      obtain ⟨l3, h3⟩ := ih l2 (by omega)
      exact ⟨l3, by simp [LRUCache.run, LRUCache.apply, h2, h3]⟩
    | get k =>
      have hcap : (l.Get k).2.capacity = l.capacity := by
        unfold LRUCache.Get
        split <;> rfl
      obtain ⟨l3, h3⟩ := ih (l.Get k).2 (by omega)
      exact ⟨l3, by simp [LRUCache.run, LRUCache.apply, h3]⟩

theorem runNew_ok_of_pos (c : Int) (hc : 1 ≤ c) (ops : List CacheOp) :
    ∃ l, runNew c ops = .ok l := by
  obtain ⟨l0, hn, hwf, -, -⟩ := WF_new (c := c) (by omega)
  obtain ⟨l1, h1⟩ := run_ok_of_pos ops l0 (by rw [hwf.cap]; exact hc)
  exact ⟨l1, by simp [runNew, hn, h1]⟩

theorem WF_size {c : Int} {l : LRUCache} (h : l.WF c) : l.size = l.order.length := by
  have hkeys : l.cache.keys = l.order.toFinset := by
    ext j
    rw [Finmap.mem_keys, List.mem_toFinset, h.keys j]
  unfold LRUCache.size
  rw [hkeys, List.toFinset_card_of_nodup h.nodup]

/-- Writing back the value found under a key restores the map. -/
theorem insert_erase_of_lookup {m : TaskMap} {k : String} {v : Task}
    (h : m.lookup k = some v) : (m.erase k).insert k v = m := by
  apply Finmap.ext_lookup
  intro x
  by_cases hx : x = k
  · subst hx
    rw [Finmap.lookup_insert, h]
  · rw [Finmap.lookup_insert_of_ne _ hx, Finmap.lookup_erase_ne hx]

theorem lookup_insert_erase_ne (m : TaskMap) (a k j : String) (v : Task)
    (hjk : j ≠ k) (hja : j ≠ a) : ((m.erase a).insert k v).lookup j = m.lookup j := by
  rw [Finmap.lookup_insert_of_ne _ hjk, Finmap.lookup_erase_ne hja]

/-! ## Lemmas on recency -/

theorem mem_lastTouchOrder (k : String) (ts : List String) :
    k ∈ lastTouchOrder ts ↔ k ∈ ts := by
  induction ts with
  | nil => simp [lastTouchOrder]
  | cons t rest ih =>
    unfold lastTouchOrder
    by_cases ht : t ∈ rest
    · rw [if_pos ht, ih, List.mem_cons]
      constructor
      · exact Or.inr
      · rintro (h | h)
        · exact h ▸ ht
        · exact h
    · rw [if_neg ht, List.mem_cons, List.mem_cons, ih]

theorem nodup_lastTouchOrder (ts : List String) : (lastTouchOrder ts).Nodup := by
  induction ts with
  | nil => simp [lastTouchOrder]
  | cons t rest ih =>
    unfold lastTouchOrder
    by_cases ht : t ∈ rest
    · rw [if_pos ht]
      exact ih
    · rw [if_neg ht]
      exact List.nodup_cons.2 ⟨fun h => ht ((mem_lastTouchOrder t rest).1 h), ih⟩

/-- A new touch moves its key to the end of the last-touch order. -/
theorem lastTouchOrder_snoc (ts : List String) (k : String) :
    lastTouchOrder (ts ++ [k]) = (lastTouchOrder ts).erase k ++ [k] := by
  induction ts with
  | nil => simp [lastTouchOrder]
  | cons t rest ih =>
    rw [List.cons_append]
    unfold lastTouchOrder
    by_cases htk : t = k
    · subst htk
      have h1 : t ∈ rest ++ [t] := List.mem_append_right _ (List.mem_singleton_self t)
      rw [if_pos h1, ih]
      by_cases ht : t ∈ rest
      · rw [if_pos ht]
      · rw [if_neg ht, List.erase_cons_head,
          List.erase_of_not_mem (fun h => ht ((mem_lastTouchOrder t rest).1 h))]
    · have h1 : t ∈ rest ++ [k] ↔ t ∈ rest := by
        rw [List.mem_append, List.mem_singleton]
        constructor
        · rintro (h | h)
          · exact h
          · exact absurd h htk
        · exact Or.inl
      by_cases ht : t ∈ rest
      · rw [if_pos (h1.2 ht), if_pos ht, ih]
      · rw [if_neg (fun h => ht (h1.1 h)), if_neg ht, ih, List.erase_cons_tail, List.cons_append]
        simpa using htk

theorem lastTouchOrder_getLast (ts : List String) :
    (lastTouchOrder ts).getLast? = ts.getLast? := by
  rcases List.eq_nil_or_concat ts with h | ⟨L, b, h⟩
  · subst h
    rfl
  · rw [List.concat_eq_append] at h
    subst h
    rw [lastTouchOrder_snoc, List.getLast?_concat, List.getLast?_concat]

theorem lastN_of_length_le (c : Int) (xs : List String) (h : xs.length ≤ c.toNat) :
    lastN c xs = xs := by
  unfold lastN
  rw [Nat.sub_eq_zero_of_le h, List.drop_zero]

theorem lastN_append_of_length_eq (c : Int) (xs ys : List String)
    (h : ys.length = c.toNat) : lastN c (xs ++ ys) = ys := by
  unfold lastN
  apply List.drop_left'
  rw [List.length_append, h, Nat.add_sub_cancel]

theorem length_lastN_le (c : Int) (xs : List String) : (lastN c xs).length ≤ c.toNat := by
  unfold lastN
  rw [List.length_drop]
  omega

/-- The part cut off by `lastN` is empty unless `lastN` is full. -/
theorem lastN_split (c : Int) (xs : List String) :
    ∃ front, xs = front ++ lastN c xs ∧ (front = [] ∨ (lastN c xs).length = c.toNat) := by
  refine ⟨xs.take (xs.length - c.toNat), ?_, ?_⟩
  · unfold lastN
    rw [List.take_append_drop]
  · by_cases h : xs.length ≤ c.toNat
    · left
      rw [Nat.sub_eq_zero_of_le h, List.take_zero]
    · right
      unfold lastN
      rw [List.length_drop]
      omega

theorem lastN_getLast (c : Int) (hc : 1 ≤ c) (xs : List String) :
    (lastN c xs).getLast? = xs.getLast? := by
  unfold lastN
  rw [List.getLast?_drop]
  by_cases h : xs = []
  · subst h
    simp
  · have hpos : 0 < xs.length := List.length_pos.2 h
    have hn : 1 ≤ c.toNat := by omega
    rw [if_neg (by omega)]

/-- Effect of one touch on the truncated last-touch order, case by case. -/
theorem lastN_touch (c : Int) (hc : 1 ≤ c) (ds : List String) (hd : ds.Nodup) (k : String) :
    (k ∈ lastN c ds → lastN c (ds.erase k ++ [k]) = (lastN c ds).erase k ++ [k]) ∧
    (k ∉ lastN c ds → ¬ c ≤ ((lastN c ds).length : Int) →
      lastN c (ds.erase k ++ [k]) = lastN c ds ++ [k]) ∧
    (k ∉ lastN c ds → c ≤ ((lastN c ds).length : Int) → ∀ oldest rest,
      lastN c ds = oldest :: rest → lastN c (ds.erase k ++ [k]) = rest ++ [k]) := by
  obtain ⟨front, hsplit, hfront⟩ := lastN_split c ds
  have hle := length_lastN_le c ds
  have hcn : (c.toNat : Int) = c := Int.toNat_of_nonneg (by omega)
  generalize hB : lastN c ds = back at hsplit hfront hle
  subst hsplit
  have hdisj := (List.nodup_append.1 hd).2.2
  refine ⟨?_, ?_, ?_⟩
  · intro hk
    have hkf : k ∉ front := fun h => hdisj h hk
    rw [List.erase_append_right _ hkf, List.append_assoc]
    have hlen : (back.erase k ++ [k]).length = back.length := by
      rw [List.length_append, List.length_erase_of_mem hk, List.length_singleton]
      have := List.length_pos_of_mem hk
      omega
    rcases hfront with h0 | hfull
    · subst h0
      rw [List.nil_append]
      exact lastN_of_length_le c _ (by omega)
    · exact lastN_append_of_length_eq c _ _ (by omega)
  · intro hk hroom
    rcases hfront with h0 | hfull
    · subst h0
      rw [List.nil_append, List.erase_of_not_mem hk]
      apply lastN_of_length_le
      rw [List.length_append, List.length_singleton]
      omega
    · exact absurd (by omega) hroom
  · intro hk hfull oldest rest hcons
    have hlen : back.length = c.toNat := by omega
    have herase : (front ++ back).erase k = front.erase k ++ back := by
      by_cases hkf : k ∈ front
      · exact List.erase_append_left _ hkf
      · rw [List.erase_append_right _ hkf, List.erase_of_not_mem hk, List.erase_of_not_mem hkf]
    rw [herase, hcons, List.append_assoc, List.cons_append, List.append_cons (front.erase k)]
    apply lastN_append_of_length_eq
    rw [hcons, List.length_cons] at hlen
    rw [List.length_append, List.length_singleton]
    omega

/-- A promotion in the cache is a touch in the truncated last-touch order. -/
theorem order_after_promote {c : Int} (hc : 1 ≤ c) {l : LRUCache} (hwf : l.WF c)
    (ts : List String) (hord : l.order = lastN c (lastTouchOrder ts)) (k : String) (v : Task)
    (hk : k ∈ l.cache) :
    ((l.remove k).store k v).order = lastN c (lastTouchOrder (ts ++ [k])) := by
  have hko : k ∈ lastN c (lastTouchOrder ts) := hord ▸ (hwf.keys k).2 hk
  rw [remove_store_order, lastTouchOrder_snoc,
    (lastN_touch c hc _ (nodup_lastTouchOrder ts) k).1 hko, hord]

theorem order_after_apply {c : Int} (hc : 1 ≤ c) {l l2 : LRUCache} (hwf : l.WF c)
    (ts : List String) (hord : l.order = lastN c (lastTouchOrder ts)) (op : CacheOp)
    (ha : l.apply op = .ok l2) :
    l2.order = lastN c (lastTouchOrder (ts ++ touchOf l op)) := by
  cases op with
  | put k v =>
    simp only [LRUCache.apply] at ha
    simp only [touchOf]
    have hcap : 1 ≤ l.capacity := by rw [hwf.cap]; exact hc
    rcases Put_cases l k v hcap with ⟨hk, h⟩ | ⟨hk, hroom, h⟩ | ⟨hk, hfull, oldest, rest, ho, h⟩
    · rw [h] at ha
      cases ha
      exact order_after_promote hc hwf ts hord k v hk
    · rw [h] at ha
      cases ha
      have hko : k ∉ lastN c (lastTouchOrder ts) := fun hx => hk ((hwf.keys k).1 (hord ▸ hx))
      have hroom2 : ¬ c ≤ ((lastN c (lastTouchOrder ts)).length : Int) := by
        rw [← hord, ← hwf.cap]
        exact hroom
      rw [lastTouchOrder_snoc,
        (lastN_touch c hc _ (nodup_lastTouchOrder ts) k).2.1 hko hroom2, ← hord]
      rfl
    · rw [h] at ha
      cases ha
      have hko : k ∉ lastN c (lastTouchOrder ts) := fun hx => hk ((hwf.keys k).1 (hord ▸ hx))
      have hfull2 : c ≤ ((lastN c (lastTouchOrder ts)).length : Int) := by
        rw [← hord, ← hwf.cap]
        exact hfull
      rw [lastTouchOrder_snoc,
        (lastN_touch c hc _ (nodup_lastTouchOrder ts) k).2.2 hko hfull2 oldest rest
          (hord ▸ ho),
        remove_store_order, ho, List.erase_cons_head]
  | get k =>
    simp only [LRUCache.apply, Except.ok.injEq] at ha
    subst ha
    by_cases hk : k ∈ l.cache
    · obtain ⟨value, hv⟩ := Finmap.mem_iff.1 hk
      have hget : l.Get k = (some value, (l.remove k).store k value) := by
        unfold LRUCache.Get
        rw [hv]
      simp only [touchOf, if_pos hk, hget]
      exact order_after_promote hc hwf ts hord k value hk
    · have hget : l.Get k = (none, l) := by
        unfold LRUCache.Get
        rw [Finmap.lookup_eq_none.2 hk]
      simp only [touchOf, if_neg hk, hget, List.append_nil]
      exact hord

theorem order_after_run {c : Int} (hc : 1 ≤ c) (ops : List CacheOp) :
    ∀ (l l1 : LRUCache) (ts : List String), l.WF c →
      l.order = lastN c (lastTouchOrder ts) → l.run ops = .ok l1 →
      l1.order = lastN c (lastTouchOrder (ts ++ touches l ops)) := by
  induction ops with
  | nil =>
    intro l l1 ts _ hord hr
    simp only [LRUCache.run, Except.ok.injEq] at hr
    subst hr
    simpa [touches] using hord
  | cons op ops ih =>
    intro l l1 ts hwf hord hr
    simp only [LRUCache.run] at hr
    cases ha : l.apply op with
    | error e => rw [ha] at hr; cases hr
    | ok l2 =>
      rw [ha] at hr
      have h2 := order_after_apply hc hwf ts hord op ha
      have h3 := ih l2 l1 (ts ++ touchOf l op) (WF_apply hwf op ha) h2 hr
      simp only [touches, ha]
      rw [← List.append_assoc]
      exact h3

/-! ## Lemmas on the registry and the dispatcher -/

theorem foldl_count_eq (status : String) (ts : List Task) (n : Nat) :
    ts.foldl (fun count task => if task.Status = status then count + 1 else count) n
      = n + ts.countP (fun task => task.Status = status) := by
  induction ts generalizing n with
  | nil => simp
  | cons t rest ih =>
    rw [List.foldl_cons, ih, List.countP_cons]
    by_cases h : t.Status = status
    · simp only [h, if_true, decide_True]
      omega
    · simp [h]

theorem countTasksByStatus_eq_countP (g : Globals) (status : String) :
    countTasksByStatus g status = g.tasks.countP (fun task => task.Status = status) := by
  unfold countTasksByStatus
  rw [foldl_count_eq, Nat.zero_add]

theorem submitTask_of_error (g : Globals) (err mech newID : String) (now : Int) :
    submitTask g ⟨.error err, mech⟩ newID now = (g, .badRequest err) := rfl

theorem submitTask_tasks (g : Globals) (req : Request) (newID : String) (now : Int) :
    (submitTask g req newID now).1.tasks
      = g.tasks ++ (Event.accepted (.submit req newID now)).toList := by
  obtain ⟨body, mech⟩ := req
  cases body with
  | error err => simp [submitTask, Event.accepted]
  | ok decoded =>
    unfold submitTask
    by_cases hroom : g.taskQueue.length < taskQueueCap
    · simp [hroom, Event.accepted]
    · simp [hroom, Event.accepted]

theorem accepted_pending (ev : Event) (t : Task) (h : ev.accepted = some t) :
    t.Status = "pending" := by
  cases ev with
  | submit req newID now =>
    obtain ⟨body, mech⟩ := req
    cases body with
    | error err => simp [Event.accepted] at h
    | ok decoded =>
      simp only [Event.accepted, Option.some.injEq] at h
      rw [← h]
  | completeSend task => simp [Event.accepted] at h
  | dispatch => simp [Event.accepted] at h

theorem route_ok (d : Dispatcher) (mech : String) (task : Task)
    (hcap : d.lruCache.capacity = 10) :
    ∃ d1, d.route mech task = .ok d1 ∧ d1.lruCache.capacity = 10 := by
  unfold Dispatcher.route
  by_cases h1 : mech = "LRU"
  · obtain ⟨c1, hc1, hcap1⟩ := Put_ok_of_pos d.lruCache task.ID task (by rw [hcap]; decide)
    rw [if_pos h1, hc1]
    exact ⟨_, rfl, hcap1.trans hcap⟩
  · by_cases h2 : mech = "RoundRobin"
    · rw [if_neg h1, if_pos h2]
      exact ⟨_, rfl, hcap⟩
    · by_cases h3 : mech = "FIFO"
      · rw [if_neg h1, if_neg h2, if_pos h3]
        exact ⟨_, rfl, hcap⟩
      · rw [if_neg h1, if_neg h2, if_neg h3]
        exact ⟨_, rfl, hcap⟩

theorem step_ok {s : System} (h : s.Inv) (ev : Event) :
    ∃ s1, s.step ev = .ok s1 ∧ s1.Inv ∧
      s1.globals.tasks = s.globals.tasks ++ ev.accepted.toList := by
  cases ev with
  | submit req newID now =>
    refine ⟨_, rfl, ⟨h.cap, ?_⟩, submitTask_tasks _ _ _ _⟩
    intro t ht
    change t ∈ (submitTask s.globals req newID now).1.tasks at ht
    rw [submitTask_tasks, List.mem_append] at ht
    rcases ht with ht | ht
    · exact h.pending t ht
    · exact accepted_pending _ t (Option.mem_toList.1 ht)
  | completeSend task =>
    by_cases hroom : s.globals.taskQueue.length < taskQueueCap
    · refine ⟨{ s with globals := { s.globals with taskQueue := s.globals.taskQueue ++ [task] } },
        ?_, ⟨h.cap, h.pending⟩, ?_⟩
      · simp [System.step, completeSend, hroom]
      · simp [Event.accepted]
    · refine ⟨s, ?_, h, ?_⟩
      · simp [System.step, completeSend, hroom]
      · simp [Event.accepted]
  | dispatch =>
    cases hq : s.globals.taskQueue with
    | nil =>
      refine ⟨s, ?_, h, ?_⟩
      · simp [System.step, System.dispatch, hq]
      · simp [Event.accepted]
    | cons task rest =>
      obtain ⟨d1, hd1, hcap1⟩ := route_ok s.dispatcher s.globals.schedulingMechanism task h.cap
      refine ⟨{ globals := { s.globals with taskQueue := rest }, dispatcher := d1 },
        ?_, ⟨hcap1, h.pending⟩, ?_⟩
      · simp [System.step, System.dispatch, hq, hd1]
      · simp [Event.accepted]

theorem run_ok (evs : List Event) : ∀ {s : System}, s.Inv →
    ∃ s1, s.run evs = .ok s1 ∧ s1.Inv ∧
      s1.globals.tasks = s.globals.tasks ++ evs.filterMap Event.accepted := by
  induction evs with
  | nil =>
    intro s h
    exact ⟨s, rfl, h, by simp⟩
  | cons ev evs ih =>
    intro s h
    obtain ⟨s1, hs1, hinv1, ht1⟩ := step_ok h ev
    obtain ⟨s2, hs2, hinv2, ht2⟩ := ih hinv1
    refine ⟨s2, ?_, hinv2, ?_⟩
    · simp [System.run, hs1, hs2]
    · rw [ht2, ht1, List.append_assoc]
      congr 1
      cases hacc : ev.accepted with
      | none => simp [List.filterMap_cons, hacc]
      | some t => simp [List.filterMap_cons, hacc]

theorem runSystem_ok (evs : List Event) :
    ∃ s, runSystem evs = .ok s ∧ s.Inv ∧ s.globals.tasks = evs.filterMap Event.accepted := by
  have h0 : newSystem = .ok ⟨globals0, ⟨⟨10, ∅, []⟩, [], []⟩⟩ := by decide
  have hinv : System.Inv ⟨globals0, ⟨⟨10, ∅, []⟩, [], []⟩⟩ :=
    ⟨rfl, fun t ht => by simp [globals0] at ht⟩
  obtain ⟨s1, hs1, hinv1, ht1⟩ := run_ok evs hinv
  refine ⟨s1, ?_, hinv1, ?_⟩
  · unfold runSystem
    rw [h0]
    exact hs1
  · rw [ht1]
    simp [globals0]

/-! ## The claims -/

/-- C1: for every capacity `c ≥ 1` and every finite sequence of `Put` and `Get`
calls applied to `NewLRUCache(c)`, where a touch of `k` is a `Put(k, _)` or a
`Get(k)` that hits, the calls return a cache whose recency order is the list of
distinct touched keys sorted by the position of their last touch (oldest
first), truncated to its last `c` elements; the keys of the mapping are exactly
the keys of that list, and the tail of the order is the most recently touched
key. -/
theorem C1_order_is_truncated_last_touch_order (c : Int) (hc : 1 ≤ c) (ops : List CacheOp) :
    ∃ l, runNew c ops = .ok l ∧
      l.order = lastN c (lastTouchOrder (touchesNew c ops)) ∧
      (∀ k, k ∈ l.cache ↔ k ∈ lastN c (lastTouchOrder (touchesNew c ops))) ∧
      l.order.getLast? = (touchesNew c ops).getLast? := by
  obtain ⟨l0, hn, hwf0, ho0, -⟩ := WF_new (c := c) (by omega)
  obtain ⟨l, hl⟩ := runNew_ok_of_pos c hc ops
  have hwf : l.WF c := WF_of_reachable ⟨_, hl⟩
  have hrun : l0.run ops = .ok l := by
    unfold runNew at hl
    rw [hn] at hl
    exact hl
  have htouch : touchesNew c ops = touches l0 ops := by
    unfold touchesNew
    rw [hn]
  have hord : l.order = lastN c (lastTouchOrder (touchesNew c ops)) := by
    have h := order_after_run hc ops l0 l [] hwf0 (by rw [ho0]; simp [lastN, lastTouchOrder]) hrun
    rw [List.nil_append] at h
    rw [htouch]
    exact h
  refine ⟨l, hl, hord, ?_, ?_⟩
  · intro k
    rw [← hord]
    exact (hwf.keys k).symm
  · rw [hord, lastN_getLast c hc, lastTouchOrder_getLast]

theorem C1_order_is_truncated_last_touch_order_witness :
    ∃ l, runNew 2 [.put "a" taskA, .put "b" taskB, .put "c" taskC, .get "a", .get "b",
        .put "d" taskD] = .ok l ∧
      l.order = lastN 2 (lastTouchOrder (touchesNew 2
        [.put "a" taskA, .put "b" taskB, .put "c" taskC, .get "a", .get "b", .put "d" taskD])) ∧
      (∀ k, k ∈ l.cache ↔ k ∈ lastN 2 (lastTouchOrder (touchesNew 2
        [.put "a" taskA, .put "b" taskB, .put "c" taskC, .get "a", .get "b", .put "d" taskD]))) ∧
      l.order.getLast? = (touchesNew 2
        [.put "a" taskA, .put "b" taskB, .put "c" taskC, .get "a", .get "b",
          .put "d" taskD]).getLast? :=
  C1_order_is_truncated_last_touch_order 2 (by decide)
    [.put "a" taskA, .put "b" taskB, .put "c" taskC, .get "a", .get "b", .put "d" taskD]

/-- C2: for every capacity `c ≥ 1` and every finite sequence of `Put` and `Get`
calls applied to `NewLRUCache(c)`, after each call (after every prefix of the
sequence) the calls have returned a cache whose mapping has at most `c` entries
and whose recency order has at most `c` keys. -/
theorem C2_size_never_exceeds_capacity (c : Int) (hc : 1 ≤ c) (ops : List CacheOp)
    (n : Nat) :
    ∃ l, runNew c (ops.take n) = .ok l ∧ (l.size : Int) ≤ c ∧ (l.order.length : Int) ≤ c := by
  obtain ⟨l, hl⟩ := runNew_ok_of_pos c hc (ops.take n)
  have hwf : l.WF c := WF_of_reachable ⟨_, hl⟩
  refine ⟨l, hl, ?_, hwf.bound⟩
  rw [WF_size hwf]
  exact hwf.bound

theorem C2_size_never_exceeds_capacity_witness :
    ∃ l, runNew 2 ([CacheOp.put "a" taskA, .put "b" taskB, .put "c" taskC].take 3) = .ok l ∧
      (l.size : Int) ≤ 2 ∧ (l.order.length : Int) ≤ 2 :=
  C2_size_never_exceeds_capacity 2 (by decide) [.put "a" taskA, .put "b" taskB, .put "c" taskC] 3

/-- C3: in a state reachable from `NewLRUCache(c)`, `c ≥ 1`, whose order has
length `c`, `Put(k, v)` of a key `k` that is not in the mapping returns; it
removes exactly the key at index 0 of the order from the order and from the
mapping, keeps every other entry with its value and relative order, and appends
`k` at the tail mapped to `v`.  At capacity 2: after `Put(a)`, `Put(b)`,
`Put(c)` the call `Get(a)` misses; after a further `Get(b)`, `Put(d)` the key
`c`, cached until then, is gone and `b` is kept. -/
theorem C3_put_on_full_cache_evicts_head :
    (∀ (c : Int) (l : LRUCache) (k : String) (v : Task), 1 ≤ c → l.Reachable c →
      (l.order.length : Int) = c → k ∉ l.cache →
      ∃ oldest rest l1, l.order = oldest :: rest ∧ l.Put k v = .ok l1 ∧
        oldest ∈ l.cache ∧ oldest ∉ l1.cache ∧ oldest ∉ l1.order ∧
        l1.order = rest ++ [k] ∧ l1.cache.lookup k = some v ∧
        (∀ j, j ≠ k → j ≠ oldest → l1.cache.lookup j = l.cache.lookup j) ∧
        l1.capacity = l.capacity) ∧
    (runNew 2 [.put "a" taskA, .put "b" taskB, .put "c" taskC]).map
        (fun l => (l.Get "a").1) = .ok none ∧
    (runNew 2 [.put "a" taskA, .put "b" taskB, .put "c" taskC, .get "b"]).map
        (fun l => (l.cache.lookup "c", l.order)) = .ok (some taskC, ["c", "b"]) ∧
    (runNew 2 [.put "a" taskA, .put "b" taskB, .put "c" taskC, .get "b", .put "d" taskD]).map
        (fun l => (l.cache.lookup "c", l.cache.lookup "b", l.cache.lookup "d", l.order))
      = .ok (none, some taskB, some taskD, ["b", "d"]) := by
  refine ⟨?_, by decide, by decide, by decide⟩
  intro c l k v hc hr hlen hk
  have hwf : l.WF c := WF_of_reachable hr
  have hfull : l.capacity ≤ (l.order.length : Int) := by rw [hwf.cap, hlen]
  have hne : l.order ≠ [] := by
    intro h0
    rw [h0] at hlen
    simp only [List.length_nil, Nat.cast_zero] at hlen
    omega
  obtain ⟨oldest, rest, ho⟩ := List.exists_cons_of_ne_nil hne
  have hput := Put_of_full l k v hk hfull oldest rest ho
  have hoo : oldest ∈ l.order := by rw [ho]; exact List.mem_cons_self _ _
  have hoc : oldest ∈ l.cache := (hwf.keys oldest).1 hoo
  have hok : oldest ≠ k := fun h => hk (h ▸ hoc)
  have hnd : (oldest :: rest).Nodup := ho ▸ hwf.nodup
  have hor : oldest ∉ rest := (List.nodup_cons.1 hnd).1
  have horder : ((l.remove oldest).store k v).order = rest ++ [k] := by
    rw [remove_store_order, ho, List.erase_cons_head]
  refine ⟨oldest, rest, _, ho, hput, hoc, ?_, ?_, horder, ?_, ?_, rfl⟩
  · rw [remove_store_cache, Finmap.mem_insert, Finmap.mem_erase]
    rintro (h | ⟨h, -⟩)
    · exact hok h
    · exact h rfl
  · rw [horder, List.mem_append, List.mem_singleton]
    rintro (h | h)
    · exact hor h
    · exact hok h
  · rw [remove_store_cache, Finmap.lookup_insert]
  · intro j hjk hjo
    rw [remove_store_cache]
    exact lookup_insert_erase_ne _ _ _ _ _ hjk hjo

theorem C3_put_on_full_cache_evicts_head_witness :
    ∃ oldest rest l1, cacheCB.order = oldest :: rest ∧ cacheCB.Put "d" taskD = .ok l1 ∧
      oldest ∈ cacheCB.cache ∧ oldest ∉ l1.cache ∧ oldest ∉ l1.order ∧
      l1.order = rest ++ ["d"] ∧ l1.cache.lookup "d" = some taskD ∧
      (∀ j, j ≠ "d" → j ≠ oldest → l1.cache.lookup j = cacheCB.cache.lookup j) ∧
      l1.capacity = cacheCB.capacity :=
  C3_put_on_full_cache_evicts_head.1 2 cacheCB "d" taskD (by decide)
    ⟨[.put "a" taskA, .put "b" taskB, .put "c" taskC, .get "b"], by decide⟩
    (by decide) (by decide)

/-- C4: in a state reachable from `NewLRUCache(c)`, `c ≥ 1`, `Put(k, v)` of a
key `k` already in the mapping returns; the set of cached keys, the size of the
mapping, the length of the order and the capacity are unchanged (no eviction,
also when the cache is full), `k` is mapped to `v`, every other key keeps its
value, and the order is the old order with `k` removed followed by `k`, so `k`
occurs exactly once, at the tail. -/
theorem C4_put_existing_key_promotes (c : Int) (l : LRUCache) (k : String) (v : Task)
    (_hc : 1 ≤ c) (hr : l.Reachable c) (hk : k ∈ l.cache) :
    ∃ l1, l.Put k v = .ok l1 ∧
      l1.cache.keys = l.cache.keys ∧ l1.size = l.size ∧
      l1.order.length = l.order.length ∧ l1.capacity = l.capacity ∧
      l1.cache.lookup k = some v ∧
      (∀ j, j ≠ k → l1.cache.lookup j = l.cache.lookup j) ∧
      l1.order = l.order.filter (fun j => j != k) ++ [k] ∧
      l1.order.count k = 1 ∧ l1.order.getLast? = some k := by
  have hwf : l.WF c := WF_of_reachable hr
  have hwf1 : ((l.remove k).store k v).WF c := WF_promote hwf k v hk
  have hkeys : ((l.remove k).store k v).cache.keys = l.cache.keys := by
    ext j
    rw [Finmap.mem_keys, Finmap.mem_keys, remove_store_cache, Finmap.mem_insert,
      Finmap.mem_erase]
    constructor
    · rintro (h | ⟨-, h⟩)
      · exact h ▸ hk
      · exact h
    · intro h
      by_cases hj : j = k
      · exact Or.inl hj
      · exact Or.inr ⟨hj, h⟩
  have hsize : ((l.remove k).store k v).size = l.size := by
    unfold LRUCache.size
    rw [hkeys]
  have horder : ((l.remove k).store k v).order = l.order.filter (fun j => j != k) ++ [k] := by
    rw [remove_store_order, hwf.nodup.erase_eq_filter]
  refine ⟨_, Put_of_mem l k v hk, hkeys, hsize, ?_, rfl, ?_, ?_, horder, ?_, ?_⟩
  · have h1 := WF_size hwf1
    have h2 := WF_size hwf
    omega
  · rw [remove_store_cache, Finmap.lookup_insert]
  · intro j hj
    rw [remove_store_cache]
    exact lookup_insert_erase_ne _ _ _ _ _ hj hj
  · apply List.count_eq_one_of_mem hwf1.nodup
    rw [remove_store_order]
    exact List.mem_append_right _ (List.mem_singleton_self k)
  · rw [remove_store_order, List.getLast?_concat]

theorem C4_put_existing_key_promotes_witness :
    ∃ l1, cacheCB.Put "c" taskD = .ok l1 ∧
      l1.cache.keys = cacheCB.cache.keys ∧ l1.size = cacheCB.size ∧
      l1.order.length = cacheCB.order.length ∧ l1.capacity = cacheCB.capacity ∧
      l1.cache.lookup "c" = some taskD ∧
      (∀ j, j ≠ "c" → l1.cache.lookup j = cacheCB.cache.lookup j) ∧
      l1.order = cacheCB.order.filter (fun j => j != "c") ++ ["c"] ∧
      l1.order.count "c" = 1 ∧ l1.order.getLast? = some "c" :=
  C4_put_existing_key_promotes 2 cacheCB "c" taskD (by decide)
    ⟨[.put "a" taskA, .put "b" taskB, .put "c" taskC, .get "b"], by decide⟩ (by decide)

/-- C5: in a state reachable from `NewLRUCache(c)`, `c ≥ 1`, `Get(k)` of a key
`k` in the mapping returns `(value, true)` with the value stored under `k`,
leaves the mapping (keys and values) and the capacity unchanged, and makes the
order the old order with `k` removed followed by `k`. -/
theorem C5_get_hit_promotes (c : Int) (l : LRUCache) (k : String)
    (_hc : 1 ≤ c) (hr : l.Reachable c) (hk : k ∈ l.cache) :
    ∃ value, l.cache.lookup k = some value ∧ (l.Get k).1 = some value ∧
      (l.Get k).2.cache = l.cache ∧ (l.Get k).2.capacity = l.capacity ∧
      (l.Get k).2.order = l.order.filter (fun j => j != k) ++ [k] := by
  have hwf : l.WF c := WF_of_reachable hr
  obtain ⟨value, hv⟩ := Finmap.mem_iff.1 hk
  have hget : l.Get k = (some value, (l.remove k).store k value) := by
    unfold LRUCache.Get
    rw [hv]
  refine ⟨value, hv, ?_, ?_, ?_, ?_⟩
  · rw [hget]
  · rw [hget]
    exact insert_erase_of_lookup hv
  · rw [hget]
    rfl
  · rw [hget]
    show ((l.remove k).store k value).order = _
    rw [remove_store_order, hwf.nodup.erase_eq_filter]

theorem C5_get_hit_promotes_witness :
    ∃ value, cacheCB.cache.lookup "c" = some value ∧ (cacheCB.Get "c").1 = some value ∧
      (cacheCB.Get "c").2.cache = cacheCB.cache ∧
      (cacheCB.Get "c").2.capacity = cacheCB.capacity ∧
      (cacheCB.Get "c").2.order = cacheCB.order.filter (fun j => j != "c") ++ ["c"] :=
  C5_get_hit_promotes 2 cacheCB "c" (by decide)
    ⟨[.put "a" taskA, .put "b" taskB, .put "c" taskC, .get "b"], by decide⟩ (by decide)

/-- C6: in every cache state, `Get(k)` of a key `k` that is not in the mapping
reports a miss (no value, false) and leaves capacity, mapping and order
unchanged; and `Get(k)` reports a miss only if `k` is not in the mapping. -/
theorem C6_get_miss_iff_absent (l : LRUCache) (k : String) :
    (k ∉ l.cache → l.Get k = (none, l)) ∧ ((l.Get k).1 = none → k ∉ l.cache) := by
  constructor
  · intro hk
    unfold LRUCache.Get
    rw [Finmap.lookup_eq_none.2 hk]
  · intro hmiss hk
    obtain ⟨value, hv⟩ := Finmap.mem_iff.1 hk
    unfold LRUCache.Get at hmiss
    rw [hv] at hmiss
    cases hmiss

theorem C6_get_miss_iff_absent_witness :
    cacheCB.Get "a" = (none, cacheCB) ∧ "a" ∉ cacheCB.cache :=
  ⟨(C6_get_miss_iff_absent cacheCB "a").1 (by decide),
    (C6_get_miss_iff_absent cacheCB "a").2 (by decide)⟩

/-- C7, refuted as stated: a submission whose decoded body has an empty Name and
an empty Stream is not rejected; on the start-up state it is answered with the
created task, which is appended to the registry and to the submission queue. -/
theorem C7_counterexample_empty_name_accepted :
    submitTask globals0 ⟨.ok bodyEmpty, "FIFO"⟩ "id-1" 5
      = ({ tasks := [⟨"id-1", "", "", "pending", 5⟩],
           taskQueue := [⟨"id-1", "", "", "pending", 5⟩],
           schedulingMechanism := "FIFO" }, .ok ⟨"id-1", "", "", "pending", 5⟩) ∧
    ¬ ∃ err, submitTask globals0 ⟨.ok bodyEmpty, "FIFO"⟩ "id-1" 5
      = (globals0, .badRequest err) := by
  refine ⟨by decide, ?_⟩
  rintro ⟨err, h⟩
  have h2 := congrArg Prod.snd h
  have h3 : (submitTask globals0 ⟨.ok bodyEmpty, "FIFO"⟩ "id-1" 5).2
      = .ok ⟨"id-1", "", "", "pending", 5⟩ := by decide
  rw [h3] at h2
  cases h2

/-- C7, amended: submit fails exactly when the request body does not decode;
then it answers with the decoding error and creates no task, the registry, the
submission queue and the selector being left unchanged.  A body that decodes is
never rejected, whatever its Name and Stream, the empty string included: one
task carrying that Name and Stream is appended to the registry. -/
theorem C7_submit_rejects_only_undecodable_body (g : Globals) (req : Request)
    (newID : String) (now : Int) :
    (∀ err, req.body = .error err →
      submitTask g req newID now = (g, .badRequest err)) ∧
    (∀ decoded, req.body = .ok decoded →
      (submitTask g req newID now).1.tasks
        = g.tasks ++ [⟨newID, decoded.Name, decoded.Stream, "pending", now⟩] ∧
      ∀ err, (submitTask g req newID now).2 ≠ .badRequest err) := by
  obtain ⟨body, mech⟩ := req
  constructor
  · intro err hb
    simp only at hb
    subst hb
    rfl
  · intro decoded hb
    simp only at hb
    subst hb
    constructor
    · rw [submitTask_tasks]
      rfl
    · intro err
      unfold submitTask
      by_cases hroom : g.taskQueue.length < taskQueueCap
      · simp [hroom]
      · simp [hroom]

theorem C7_submit_rejects_only_undecodable_body_witness :
    submitTask globals0 ⟨.error "EOF", "FIFO"⟩ "id-1" 5 = (globals0, .badRequest "EOF") ∧
    ((submitTask globals0 ⟨.ok bodyEmpty, ""⟩ "id-1" 5).1.tasks
        = globals0.tasks ++ [⟨"id-1", bodyEmpty.Name, bodyEmpty.Stream, "pending", 5⟩] ∧
      ∀ err, (submitTask globals0 ⟨.ok bodyEmpty, ""⟩ "id-1" 5).2 ≠ .badRequest err) :=
  ⟨(C7_submit_rejects_only_undecodable_body globals0 ⟨.error "EOF", "FIFO"⟩ "id-1" 5).1
      "EOF" rfl,
    (C7_submit_rejects_only_undecodable_body globals0 ⟨.ok bodyEmpty, ""⟩ "id-1" 5).2
      bodyEmpty rfl⟩

/-- C8: for every registry state and every accepted submission, whatever ID,
Status and Timestamp the body supplies, submit appends exactly one task at the
tail of the registry and leaves the earlier entries as they were; the appended
task has Status "pending", the generated ID, the current time and the Name and
Stream of the request; the task put on the submission queue and returned to
the caller is that same task (at once when the channel has a free slot;
otherwise the handler waits at the send and enqueues and returns that task once
a slot is free).  Hence from start-up the registry is the list of the tasks of
the accepted submissions in submission order, and its length is the number of
accepted submissions. -/
theorem C8_submit_appends_one_pending_task :
    (∀ (g : Globals) (decoded : Task) (mech newID : String) (now : Int),
      ∃ newTask : Task, newTask = ⟨newID, decoded.Name, decoded.Stream, "pending", now⟩ ∧
        (submitTask g ⟨.ok decoded, mech⟩ newID now).1.tasks = g.tasks ++ [newTask] ∧
        (g.taskQueue.length < taskQueueCap →
          (submitTask g ⟨.ok decoded, mech⟩ newID now).1.taskQueue
            = g.taskQueue ++ [newTask] ∧
          (submitTask g ⟨.ok decoded, mech⟩ newID now).2 = .ok newTask) ∧
        (taskQueueCap ≤ g.taskQueue.length →
          (submitTask g ⟨.ok decoded, mech⟩ newID now).1.taskQueue = g.taskQueue ∧
          (submitTask g ⟨.ok decoded, mech⟩ newID now).2 = .blockedOnSend newTask ∧
          ∀ g1 : Globals, g1.taskQueue.length < taskQueueCap →
            completeSend g1 newTask
              = some ({ g1 with taskQueue := g1.taskQueue ++ [newTask] }, .ok newTask))) ∧
    (∀ evs : List Event, ∃ s, runSystem evs = .ok s ∧
      s.globals.tasks = evs.filterMap Event.accepted ∧
      s.globals.tasks.length = evs.countP (fun ev => ev.accepted.isSome)) := by
  constructor
  · intro g decoded mech newID now
    refine ⟨_, rfl, ?_, ?_, ?_⟩
    · rw [submitTask_tasks]
      rfl
    · intro hroom
      simp [submitTask, hroom]
    · intro hfull
      have hroom : ¬ g.taskQueue.length < taskQueueCap := by omega
      refine ⟨by simp [submitTask, hroom], by simp [submitTask, hroom], ?_⟩
      intro g1 h1
      simp [completeSend, h1]
  · intro evs
    obtain ⟨s, hs, -, ht⟩ := runSystem_ok evs
    refine ⟨s, hs, ht, ?_⟩
    rw [ht]
    clear hs ht
    induction evs with
    | nil => rfl
    | cons ev evs ih =>
      rw [List.countP_cons]
      cases hacc : ev.accepted with
      | none => simp [List.filterMap_cons, hacc, ih]
      | some t => simp [List.filterMap_cons, hacc, ih]

theorem C8_submit_appends_one_pending_task_witness :
    ∃ newTask : Task, newTask = ⟨"id-1", "A", "X", "pending", 5⟩ ∧
      (submitTask globals0 ⟨.ok bodyA, "FIFO"⟩ "id-1" 5).1.tasks = [newTask] ∧
      (submitTask globals0 ⟨.ok bodyA, "FIFO"⟩ "id-1" 5).1.taskQueue = [newTask] ∧
      (submitTask globals0 ⟨.ok bodyA, "FIFO"⟩ "id-1" 5).2 = .ok newTask := by
  obtain ⟨t, ht, h1, h2, -⟩ :=
    C8_submit_appends_one_pending_task.1 globals0 bodyA "FIFO" "id-1" 5
  exact ⟨t, ht, h1, (h2 (by decide)).1, (h2 (by decide)).2⟩

/-- C9: in every state reached from start-up by a finite sequence of
submissions, completed sends and dispatcher steps (the sequence never panics),
the four counts reported by query sum to the length of the registry. -/
theorem C9_counts_sum_to_registry_length (evs : List Event) :
    ∃ s, runSystem evs = .ok s ∧
      countTasksByStatus s.globals "pending" + countTasksByStatus s.globals "inProgress"
        + countTasksByStatus s.globals "completed" + countTasksByStatus s.globals "failed"
        = s.globals.tasks.length ∧
      (getTasks s.globals).pending + (getTasks s.globals).inProgress
        + (getTasks s.globals).completed + (getTasks s.globals).failed
        = (getTasks s.globals).tasks.length := by
  obtain ⟨s, hs, hinv, -⟩ := runSystem_ok evs
  have hp : countTasksByStatus s.globals "pending" = s.globals.tasks.length := by
    rw [countTasksByStatus_eq_countP, List.countP_eq_length]
    intro t ht
    simp [hinv.pending t ht]
  have hz : ∀ status : String, status ≠ "pending" →
      countTasksByStatus s.globals status = 0 := by
    intro status hne
    rw [countTasksByStatus_eq_countP, List.countP_eq_zero]
    intro t ht
    simp only [decide_eq_true_eq]
    rw [hinv.pending t ht]
    exact fun h => hne h.symm
  have h1 := hz "inProgress" (by decide)
  have h2 := hz "completed" (by decide)
  have h3 := hz "failed" (by decide)
  refine ⟨s, hs, ?_, ?_⟩
  · omega
  · show countTasksByStatus s.globals "pending" + countTasksByStatus s.globals "inProgress"
        + countTasksByStatus s.globals "completed" + countTasksByStatus s.globals "failed"
        = s.globals.tasks.length
    omega

/-- C10, evaluated on the code: under the selector "FIFO" a dispatcher step
appends the received task to the tail of the FIFO queue and removes nothing,
`processFIFO` being empty; after A, B, C have been submitted and received, the
FIFO queue still holds A, B, C, its head A included, and no task has left it. -/
theorem C10_fifo_queue_is_never_dequeued :
    (∀ (d : Dispatcher) (task : Task),
      d.route "FIFO" task = .ok { d with fifoQueue := d.fifoQueue ++ [task] }) ∧
    (∀ queue : List Task, processFIFO queue = ()) ∧
    (runSystem [.submit ⟨.ok bodyA, "FIFO"⟩ "1" 10, .dispatch,
        .submit ⟨.ok bodyB, "FIFO"⟩ "2" 20, .dispatch,
        .submit ⟨.ok bodyC, "FIFO"⟩ "3" 30, .dispatch]).map
      (fun s => (s.dispatcher.fifoQueue, s.globals.taskQueue))
      = .ok ([⟨"1", "A", "X", "pending", 10⟩, ⟨"2", "B", "X", "pending", 20⟩,
              ⟨"3", "C", "Y", "pending", 30⟩], []) := by
  refine ⟨?_, fun _ => rfl, by decide⟩
  intro d task
  simp [Dispatcher.route]

/-- C11, evaluated on the code: under the selector "RoundRobin" a dispatcher
step appends the received task to the tail of the round-robin queue and
dispatches nothing, `processRoundRobin` being empty; after tasks of streams X,
X, Y have been submitted and received, the round-robin queue holds them in
arrival order X, X, Y and no task has left it. -/
theorem C11_round_robin_queue_is_never_dispatched :
    (∀ (d : Dispatcher) (task : Task),
      d.route "RoundRobin" task
        = .ok { d with roundRobinQueue := d.roundRobinQueue ++ [task] }) ∧
    (∀ queue : List Task, processRoundRobin queue = ()) ∧
    (runSystem [.submit ⟨.ok bodyA, "RoundRobin"⟩ "1" 10, .dispatch,
        .submit ⟨.ok bodyB, "RoundRobin"⟩ "2" 20, .dispatch,
        .submit ⟨.ok bodyC, "RoundRobin"⟩ "3" 30, .dispatch]).map
      (fun s => (s.dispatcher.roundRobinQueue, s.globals.taskQueue))
      = .ok ([⟨"1", "A", "X", "pending", 10⟩, ⟨"2", "B", "X", "pending", 20⟩,
              ⟨"3", "C", "Y", "pending", 30⟩], []) := by
  refine ⟨?_, fun _ => rfl, by decide⟩
  intro d task
  simp [Dispatcher.route]

/-- C12: for every dispatcher state holding the capacity 10 cache, every
dequeued task and every selector value read at that moment, one dispatcher
step updates one policy structure and leaves the other two unchanged: "LRU"
performs `Put(task.ID, task)` on the cache, "RoundRobin" appends the task to
the tail of the round-robin queue, "FIFO" and every other value, the empty
string included, append the task to the tail of the FIFO queue.  The step of
the process on a channel whose oldest task is `task` is this routing under the
current selector, so the choice depends on the selector at that step only. -/
theorem C12_route_updates_one_policy_structure (d : Dispatcher) (mech : String)
    (task : Task) (hcap : d.lruCache.capacity = 10) :
    (mech = "LRU" → ∃ cache1, d.lruCache.Put task.ID task = .ok cache1 ∧
      d.route mech task = .ok { d with lruCache := cache1 }) ∧
    (mech = "RoundRobin" →
      d.route mech task = .ok { d with roundRobinQueue := d.roundRobinQueue ++ [task] }) ∧
    (mech ≠ "LRU" → mech ≠ "RoundRobin" →
      d.route mech task = .ok { d with fifoQueue := d.fifoQueue ++ [task] }) ∧
    d.route "FIFO" task = .ok { d with fifoQueue := d.fifoQueue ++ [task] } ∧
    d.route "" task = .ok { d with fifoQueue := d.fifoQueue ++ [task] } ∧
    (∀ (g : Globals) (rest : List Task), g.taskQueue = task :: rest →
      g.schedulingMechanism = mech →
      System.dispatch ⟨g, d⟩
        = (d.route mech task).map (fun d1 => ⟨{ g with taskQueue := rest }, d1⟩)) := by
  refine ⟨?_, ?_, ?_, ?_, ?_, ?_⟩
  · intro h
    obtain ⟨cache1, hput, -⟩ :=
      Put_ok_of_pos d.lruCache task.ID task (by rw [hcap]; decide)
    refine ⟨cache1, hput, ?_⟩
    unfold Dispatcher.route
    rw [if_pos h, hput]
  · intro h
    subst h
    simp [Dispatcher.route]
  · intro h1 h2
    unfold Dispatcher.route
    rw [if_neg h1, if_neg h2]
    by_cases h3 : mech = "FIFO"
    · rw [if_pos h3]
    · rw [if_neg h3]
  · simp [Dispatcher.route]
  · simp [Dispatcher.route]
  · intro g rest hq hm
    unfold System.dispatch
    simp only [hq, hm]
    cases d.route mech task with
    | ok d1 => rfl
    | error e => rfl

theorem C12_route_updates_one_policy_structure_witness :
    (∃ cache1, (LRUCache.mk 10 ∅ []).Put taskA.ID taskA = .ok cache1 ∧
      Dispatcher.route ⟨⟨10, ∅, []⟩, [], []⟩ "LRU" taskA
        = .ok { (Dispatcher.mk ⟨10, ∅, []⟩ [] []) with lruCache := cache1 }) ∧
    Dispatcher.route ⟨⟨10, ∅, []⟩, [], []⟩ "RoundRobin" taskA
      = .ok ⟨⟨10, ∅, []⟩, [taskA], []⟩ ∧
    Dispatcher.route ⟨⟨10, ∅, []⟩, [], []⟩ "priority" taskA
      = .ok ⟨⟨10, ∅, []⟩, [], [taskA]⟩ :=
  ⟨(C12_route_updates_one_policy_structure ⟨⟨10, ∅, []⟩, [], []⟩ "LRU" taskA rfl).1 rfl,
    (C12_route_updates_one_policy_structure ⟨⟨10, ∅, []⟩, [], []⟩ "RoundRobin" taskA rfl).2.1
      rfl,
    (C12_route_updates_one_policy_structure ⟨⟨10, ∅, []⟩, [], []⟩ "priority" taskA rfl).2.2.1
      (by decide) (by decide)⟩

/-- C14: `Put` evicts only when the key is new and the cache is full.  In a
state reachable from `NewLRUCache(c)`, `c ≥ 1`, when `k` is already in the
mapping or the order is shorter than `c`, `Put(k, v)` returns, every key that
was in the cache before the call is still in the cache after it, and every key
other than `k` keeps its value. -/
theorem C14_put_keeps_entries_unless_new_and_full (c : Int) (l : LRUCache) (k : String)
    (v : Task) (_hc : 1 ≤ c) (hr : l.Reachable c)
    (hk : k ∈ l.cache ∨ (l.order.length : Int) < c) :
    ∃ l1, l.Put k v = .ok l1 ∧
      (∀ j, j ∈ l.cache → j ∈ l1.cache) ∧
      (∀ j, j ≠ k → l1.cache.lookup j = l.cache.lookup j) := by
  have hwf : l.WF c := WF_of_reachable hr
  by_cases hmem : k ∈ l.cache
  · refine ⟨_, Put_of_mem l k v hmem, ?_, ?_⟩
    · intro j hj
      rw [remove_store_cache, Finmap.mem_insert, Finmap.mem_erase]
      by_cases hjk : j = k
      · exact Or.inl hjk
      · exact Or.inr ⟨hjk, hj⟩
    · intro j hj
      rw [remove_store_cache]
      exact lookup_insert_erase_ne _ _ _ _ _ hj hj
  · have hlen : (l.order.length : Int) < c := hk.resolve_left hmem
    have hroom : ¬ l.capacity ≤ (l.order.length : Int) := by
      rw [hwf.cap]
      omega
    refine ⟨_, Put_of_room l k v hmem hroom, ?_, ?_⟩
    · intro j hj
      show j ∈ l.cache.insert k v
      rw [Finmap.mem_insert]
      exact Or.inr hj
    · intro j hj
      show (l.cache.insert k v).lookup j = l.cache.lookup j
      rw [Finmap.lookup_insert_of_ne _ hj]

theorem C14_put_keeps_entries_unless_new_and_full_witness :
    ∃ l1, cacheCB.Put "c" taskD = .ok l1 ∧
      (∀ j, j ∈ cacheCB.cache → j ∈ l1.cache) ∧
      (∀ j, j ≠ "c" → l1.cache.lookup j = cacheCB.cache.lookup j) :=
  C14_put_keeps_entries_unless_new_and_full 2 cacheCB "c" taskD (by decide)
    ⟨[.put "a" taskA, .put "b" taskB, .put "c" taskC, .get "b"], by decide⟩
    (Or.inl (by decide))

/-- C15: `Put` followed by `Get` is a round trip.  In a state reachable from
`NewLRUCache(c)`, `c ≥ 1`, for every key `k` and task `v`, `Put(k, v)` returns
and `Get(k)` performed right after it hits and returns a task equal to `v`,
whether `k` was new, already present, or caused an eviction. -/
theorem C15_get_after_put_returns_value (c : Int) (l : LRUCache) (k : String) (v : Task)
    (hc : 1 ≤ c) (hr : l.Reachable c) :
    ∃ l1, l.Put k v = .ok l1 ∧ (l1.Get k).1 = some v := by
  have hwf : l.WF c := WF_of_reachable hr
  have hcap : 1 ≤ l.capacity := by rw [hwf.cap]; exact hc
  have hget : ∀ l2 : LRUCache, l2.cache.lookup k = some v → (l2.Get k).1 = some v := by
    intro l2 h2
    unfold LRUCache.Get
    rw [h2]
  rcases Put_cases l k v hcap with ⟨-, h⟩ | ⟨-, -, h⟩ | ⟨-, -, oldest, rest, -, h⟩
  · exact ⟨_, h, hget _ (by rw [remove_store_cache, Finmap.lookup_insert])⟩
  · refine ⟨_, h, hget _ ?_⟩
    show (l.cache.insert k v).lookup k = some v
    rw [Finmap.lookup_insert]
  · exact ⟨_, h, hget _ (by rw [remove_store_cache, Finmap.lookup_insert])⟩

theorem C15_get_after_put_returns_value_witness :
    ∃ l1, cacheCB.Put "d" taskD = .ok l1 ∧ (l1.Get "d").1 = some taskD :=
  C15_get_after_put_returns_value 2 cacheCB "d" taskD (by decide)
    ⟨[.put "a" taskA, .put "b" taskB, .put "c" taskC, .get "b"], by decide⟩

/-- C16: representation invariant of the cache.  For every capacity `c ≥ 1` and
every finite sequence of `Put` and `Get` calls applied to `NewLRUCache(c)`,
after each call (after every prefix of the sequence) the calls have returned a
cache whose recency order contains no duplicate key and has the same keys as
the mapping, so that the length of the order is the size of the mapping. -/
theorem C16_order_nodup_and_same_keys_as_mapping (c : Int) (hc : 1 ≤ c)
    (ops : List CacheOp) (n : Nat) :
    ∃ l, runNew c (ops.take n) = .ok l ∧ l.order.Nodup ∧
      (∀ k, k ∈ l.order ↔ k ∈ l.cache) ∧ l.order.length = l.size := by
  obtain ⟨l, hl⟩ := runNew_ok_of_pos c hc (ops.take n)
  have hwf : l.WF c := WF_of_reachable ⟨_, hl⟩
  exact ⟨l, hl, hwf.nodup, hwf.keys, (WF_size hwf).symm⟩

theorem C16_order_nodup_and_same_keys_as_mapping_witness :
    ∃ l, runNew 2 ([CacheOp.put "a" taskA, .put "a" taskB, .get "a", .put "c" taskC,
        .put "d" taskD].take 4) = .ok l ∧ l.order.Nodup ∧
      (∀ k, k ∈ l.order ↔ k ∈ l.cache) ∧ l.order.length = l.size :=
  C16_order_nodup_and_same_keys_as_mapping 2 (by decide)
    [.put "a" taskA, .put "a" taskB, .get "a", .put "c" taskC, .put "d" taskD] 4

/-- C17: no task ever leaves the pending status.  In every state reached from
start-up by a finite sequence of submissions, completed sends and dispatcher
steps, under any selector values (the sequence never panics), every task of
the registry has Status "pending", so query reports pending equal to the size
of the registry and inProgress, completed and failed equal to 0. -/
theorem C17_every_registered_task_stays_pending (evs : List Event) :
    ∃ s, runSystem evs = .ok s ∧
      (∀ t ∈ s.globals.tasks, t.Status = "pending") ∧
      (getTasks s.globals).pending = s.globals.tasks.length ∧
      (getTasks s.globals).inProgress = 0 ∧
      (getTasks s.globals).completed = 0 ∧
      (getTasks s.globals).failed = 0 := by
  obtain ⟨s, hs, hinv, -⟩ := runSystem_ok evs
  have hz : ∀ status : String, status ≠ "pending" →
      countTasksByStatus s.globals status = 0 := by
    intro status hne
    rw [countTasksByStatus_eq_countP, List.countP_eq_zero]
    intro t ht
    simp only [decide_eq_true_eq]
    rw [hinv.pending t ht]
    exact fun h => hne h.symm
  refine ⟨s, hs, hinv.pending, ?_, hz "inProgress" (by decide), hz "completed" (by decide),
    hz "failed" (by decide)⟩
  show countTasksByStatus s.globals "pending" = s.globals.tasks.length
  rw [countTasksByStatus_eq_countP, List.countP_eq_length]
  intro t ht
  simp [hinv.pending t ht]

/-- C18: the head access `order[0]` of `Put` is safe exactly when the capacity
is positive.  For every capacity `c ≥ 1` and every state reachable from
`NewLRUCache(c)`, `Put` returns a cache and raises no panic; for capacity 0,
`NewLRUCache(0)` returns a cache with an empty order and `Put` of any key on it
panics with an index out of range instead of storing or rejecting the entry. -/
theorem C18_put_head_access_safe_iff_capacity_positive :
    (∀ (c : Int) (l : LRUCache) (k : String) (v : Task), 1 ≤ c → l.Reachable c →
      ∃ l1, l.Put k v = .ok l1) ∧
    (∀ (k : String) (v : Task), ∃ l0, NewLRUCache 0 = .ok l0 ∧ l0.order = [] ∧
      l0.Put k v = .error .indexOutOfRange) := by
  constructor
  · intro c l k v hc hr
    have hwf : l.WF c := WF_of_reachable hr
    obtain ⟨l1, h1, -⟩ := Put_ok_of_pos l k v (by rw [hwf.cap]; exact hc)
    exact ⟨l1, h1⟩
  · intro k v
    refine ⟨⟨0, ∅, []⟩, rfl, rfl, ?_⟩
    exact Put_of_empty_full _ k v (Finmap.not_mem_empty) (by simp) rfl

theorem C18_put_head_access_safe_iff_capacity_positive_witness :
    (∃ l1, cacheCB.Put "d" taskD = .ok l1) ∧
    (∃ l0, NewLRUCache 0 = .ok l0 ∧ l0.order = [] ∧
      l0.Put "a" taskA = .error .indexOutOfRange) :=
  ⟨C18_put_head_access_safe_iff_capacity_positive.1 2 cacheCB "d" taskD (by decide)
      ⟨[.put "a" taskA, .put "b" taskB, .put "c" taskC, .get "b"], by decide⟩,
    C18_put_head_access_safe_iff_capacity_positive.2 "a" taskA⟩

end DistributedQueue
